import Mathlib

/-!
# Verification of the hunk patch engine and rebase planner

This file gives a shallow embedding, in Lean 4, of the core data model and
algorithms of the `hunk` tool (packages `diff`, `patch`, `rebase`, and the
autosquash planner in `commands`), together with theorems settling the
frozen claims about them.

Conventions of the embedding:
* Go `int` is modelled as `Int`; Go `string` as `String`.
* Go slices become `List`s; iteration order is preserved.
* Go maps are modelled as association lists in insertion order.  The only
  places the source iterates over a map (`findTargetCommit`'s prefix scan,
  `ValidateAgainstCommits`) are not load-bearing for the theorems proved
  here: at every point where a theorem below depends on a map scan, the
  scan either finds nothing or is bypassed by an exact match, so the
  unspecified Go iteration order is irrelevant.
* Functions that return `([]byte, error)` in Go are modelled as
  `Except String String`; the patch engine's `Generate` always returns a
  `nil` error in the source, hence always produces `.ok` here.
-/

/-! ## diff/select.go : line ranges and selections -/

/-- `LineRange` from `diff/select.go`: an inclusive range of line numbers. -/
structure LineRange where
  start : Int
  stop : Int
deriving DecidableEq, Repr

/-- `LineRange.Contains`: whether a line number falls inside the range. -/
def LineRange.containsLine (r : LineRange) (n : Int) : Bool :=
  decide (r.start ≤ n) && decide (n ≤ r.stop)

/-- `FileSelection` from `diff/select.go`: a path plus selected ranges. -/
structure FileSelection where
  path : String
  ranges : List LineRange
deriving DecidableEq, Repr

/-- `FileSelection.Contains`: whether any range covers the line number. -/
def FileSelection.containsLine (fs : FileSelection) (n : Int) : Bool :=
  fs.ranges.any (fun r => r.containsLine n)

/-- One step of the inner loop of `Merge`'s bubble-style sort
(`for j := i+1; ...`): carries the current value of `Ranges[i]` through the
suffix, swapping whenever `Ranges[j].Start < Ranges[i].Start`.  Returns the
final value left at position `i` together with the permuted suffix. -/
def sortPass : LineRange → List LineRange → LineRange × List LineRange
  | x, [] => (x, [])
  | x, y :: ys =>
    if y.start < x.start then
      ((sortPass y ys).1, x :: (sortPass y ys).2)
    else
      ((sortPass x ys).1, y :: (sortPass x ys).2)

/-- The outer loop of `Merge`'s sort, with explicit fuel so that the
recursion is structural: since `sortPass` preserves length, fuel equal to
the list length (as passed by `goSort`) always suffices. -/
def goSortAux : Nat → List LineRange → List LineRange
  | _, [] => []
  | 0, _ :: _ => []
  | fuel + 1, x :: xs => (sortPass x xs).1 :: goSortAux fuel (sortPass x xs).2

/-- The outer loop of `Merge`'s sort: after the inner pass for index `i`,
position `i` holds the minimum of the suffix and the loop recurses on the
permuted remainder. -/
def goSort (l : List LineRange) : List LineRange :=
  goSortAux l.length l

/-- The coalescing loop of `Merge`: `last` is `merged[len(merged)-1]`;
a current range with `curr.Start <= last.End+1` is folded into `last`
(extending its end to the max), otherwise `last` is emitted and `curr`
becomes the new last element. -/
def mergePass : LineRange → List LineRange → List LineRange
  | last, [] => [last]
  | last, c :: rest =>
    if c.start ≤ last.stop + 1 then
      mergePass ⟨last.start, max last.stop c.stop⟩ rest
    else
      last :: mergePass c rest

/-- `FileSelection.Merge` on the raw range list: the `len <= 1` shortcut,
then sort, then the coalescing pass. -/
def mergeRanges (rs : List LineRange) : List LineRange :=
  if rs.length ≤ 1 then rs
  else
    match goSort rs with
    | [] => []
    | x :: xs => mergePass x xs

/-- `FileSelection.Merge` (the method mutates `fs.Ranges` in place; the
model returns the post-state). -/
def FileSelection.merge (fs : FileSelection) : FileSelection :=
  { fs with ranges := mergeRanges fs.ranges }

/-! ## diff package : lines, hunks, files -/

/-- `LineOp` from the `diff` package: context, addition or deletion. -/
inductive LineOp where
  | opContext : LineOp
  | opAdd : LineOp
  | opDelete : LineOp
deriving DecidableEq, Repr

/-- `LineOp.Prefix`: the unified-diff marker character. -/
def LineOp.prefixChar : LineOp → Char
  | .opAdd => '+'
  | .opDelete => '-'
  | .opContext => ' '

/-- `DiffLine`: one physical line of a hunk body. -/
structure DiffLine where
  op : LineOp
  content : String
  oldLineNum : Int
  newLineNum : Int
deriving DecidableEq, Repr

/-- `DiffLine.String`: marker character followed by the content. -/
def DiffLine.lineString (l : DiffLine) : String :=
  String.singleton l.op.prefixChar ++ l.content

/-- `DiffLine.IsChange`: addition or deletion. -/
def DiffLine.isChange (l : DiffLine) : Bool :=
  decide (l.op = .opAdd) || decide (l.op = .opDelete)

/-- `Hunk` from `diff/hunk.go`. -/
structure Hunk where
  oldStart : Int
  oldLines : Int
  newStart : Int
  newLines : Int
  sectionLabel : String
  lines : List DiffLine
deriving DecidableEq, Repr

/-- `Hunk.Header`: `@@ -oldStart,oldLines +newStart,newLines @@ [section]`. -/
def Hunk.header (h : Hunk) : String :=
  let base := "@@ -" ++ toString h.oldStart ++ "," ++ toString h.oldLines ++
    " +" ++ toString h.newStart ++ "," ++ toString h.newLines ++ " @@"
  if h.sectionLabel ≠ "" then base ++ " " ++ h.sectionLabel else base

/-- `Hunk.RecalculateLineCounts`: re-tally `OldLines`/`NewLines` from the
retained lines (context counts for both sides). -/
def Hunk.recalcCounts (h : Hunk) : Hunk :=
  { h with
    oldLines := ((h.lines.filter
      (fun l => l.op = .opContext || l.op = .opDelete)).length : Int)
    newLines := ((h.lines.filter
      (fun l => l.op = .opContext || l.op = .opAdd)).length : Int) }

/-- `FileDiff` from `diff/file.go`. -/
structure FileDiff where
  oldName : String
  newName : String
  hunks : List Hunk
  isBinary : Bool
  isNew : Bool
  isDeleted : Bool
  isRenamed : Bool
deriving DecidableEq, Repr

/-- `FileDiff.Path`: `OldName` when deleted, `NewName` otherwise. -/
def FileDiff.pathOf (f : FileDiff) : String :=
  if f.isDeleted then f.oldName else f.newName

/-- `ParsedDiff`: the ordered list of file diffs. -/
structure ParsedDiff where
  files : List FileDiff
deriving DecidableEq, Repr

/-! ## patch package (`Generate` and its helpers) -/

/-- `effectiveLineNum` from `patch/generate.go`: `NewLineNum` for additions,
`OldLineNum` otherwise. -/
def effectiveLineNum (l : DiffLine) : Int :=
  if l.op = .opAdd then l.newLineNum else l.oldLineNum

/-- `changeBlock`: a contiguous run of selected change lines, as half-open
indices into the original hunk's line list. -/
structure ChangeBlock where
  startIdx : Nat
  endIdx : Nat
deriving DecidableEq, Repr

/-- The loop body of `findChangeBlocks`: walks the indexed lines carrying
the optional current block.  A context line never affects the state; a
selected change line opens or extends the current block; an unselected
change line closes it. -/
def findBlocksAux (sel : FileSelection) :
    List (Nat × DiffLine) → Option ChangeBlock → List ChangeBlock
  | [], none => []
  | [], some b => [b]
  | (i, line) :: rest, cur =>
    if line.isChange then
      if sel.containsLine (effectiveLineNum line) then
        match cur with
        | none => findBlocksAux sel rest (some ⟨i, i + 1⟩)
        | some b => findBlocksAux sel rest (some ⟨b.startIdx, i + 1⟩)
      else
        match cur with
        | none => findBlocksAux sel rest none
        | some b => b :: findBlocksAux sel rest none
    else
      findBlocksAux sel rest cur

/-- `findChangeBlocks` from `patch/generate.go`. -/
def findChangeBlocks (h : Hunk) (sel : FileSelection) : List ChangeBlock :=
  findBlocksAux sel h.lines.enum none

/-- Backward context expansion of `buildHunkFromBlock`: the Go loop walks
indices `block.startIdx-1, ...` downwards while the line is context and
fewer than 3 context lines were taken, i.e. it takes the last
`min 3 k` context lines immediately preceding the block, where `k` is the
length of the maximal context run ending at `block.startIdx - 1`. -/
def contextBeforeCount (lines : List DiffLine) (startIdx : Nat) : Nat :=
  min 3 (((lines.take startIdx).reverse.takeWhile
    (fun l => decide (l.op = .opContext))).length)

/-- Forward context expansion of `buildHunkFromBlock`: up to 3 context
lines immediately following the block, stopping at the first change line. -/
def contextAfterCount (lines : List DiffLine) (endIdx : Nat) : Nat :=
  min 3 (((lines.drop endIdx).takeWhile
    (fun l => decide (l.op = .opContext))).length)

/-- The backward scan in `buildHunkFromBlock` that recomputes `OldStart`
when the first retained line is an addition: the nearest preceding line
with a positive `OldLineNum`, plus one; `original.OldStart` when none. -/
def fallbackOldStart (original : Hunk) (startIdx : Nat) : Int :=
  match (original.lines.take startIdx).reverse.find?
      (fun l => decide (0 < l.oldLineNum)) with
  | some l => l.oldLineNum + 1
  | none => original.oldStart

/-- The backward scan in `buildHunkFromBlock` that recomputes `NewStart`
when the first retained line is a deletion. -/
def fallbackNewStart (original : Hunk) (startIdx : Nat) : Int :=
  match (original.lines.take startIdx).reverse.find?
      (fun l => decide (0 < l.newLineNum)) with
  | some l => l.newLineNum + 1
  | none => original.newStart

/-- `buildHunkFromBlock` from `patch/generate.go`: expand the block by up
to 3 context lines on each side (never across a change line), copy the
retained lines, recompute the start numbers from the first retained line
(with the backward-scan fallbacks), and re-tally the counts. -/
def buildHunkFromBlock (original : Hunk) (b : ChangeBlock) : Hunk :=
  let startIdx := b.startIdx - contextBeforeCount original.lines b.startIdx
  let endIdx := b.endIdx + contextAfterCount original.lines b.endIdx
  let lines := (original.lines.drop startIdx).take (endIdx - startIdx)
  let oldStart :=
    match lines with
    | [] => (0 : Int)
    | first :: _ =>
      if 0 < first.oldLineNum then first.oldLineNum
      else fallbackOldStart original startIdx
  let newStart :=
    match lines with
    | [] => (0 : Int)
    | first :: _ =>
      if 0 < first.newLineNum then first.newLineNum
      else fallbackNewStart original startIdx
  Hunk.recalcCounts
    { oldStart := oldStart, oldLines := 0, newStart := newStart,
      newLines := 0, sectionLabel := original.sectionLabel, lines := lines }

/-- `filterHunk`: one output hunk per contiguous block of selected
changes. -/
def filterHunk (h : Hunk) (sel : FileSelection) : List Hunk :=
  (findChangeBlocks h sel).map (buildHunkFromBlock h)

/-- `filterHunks`: concatenation over the file's hunks. -/
def filterHunks (hunks : List Hunk) (sel : FileSelection) : List Hunk :=
  hunks.flatMap (fun h => filterHunk h sel)

/-- One insertion step of `NewSelectionMap`: appending a selection whose
path is already present appends its ranges to the existing entry and
re-merges them (`existing.Ranges = append(...); existing.Merge()`);
otherwise the selection is stored under its path. -/
def insertSel (m : List (String × FileSelection)) (sel : FileSelection) :
    List (String × FileSelection) :=
  match m with
  | [] => [(sel.path, sel)]
  | (p, ex) :: rest =>
    if p = sel.path then
      (p, { ex with ranges := mergeRanges (ex.ranges ++ sel.ranges) }) :: rest
    else
      (p, ex) :: insertSel rest sel

/-- `NewSelectionMap` from `diff/select.go`, as an association list in
insertion order (the Go map is only ever read through `Get`, so insertion
order never influences results). -/
def newSelectionMap (sels : List FileSelection) :
    List (String × FileSelection) :=
  sels.foldl insertSel []

/-- `SelectionMap.Get`. -/
def mapGet (m : List (String × FileSelection)) (p : String) :
    Option FileSelection :=
  (m.find? (fun e => e.1 = p)).map (fun e => e.2)

/-- The selection lookup at the top of `Generate`: current path, then the
old name, then the new name. -/
def lookupSel (m : List (String × FileSelection)) (f : FileDiff) :
    Option FileSelection :=
  match mapGet m f.pathOf with
  | some s => some s
  | none =>
    match mapGet m f.oldName with
    | some s => some s
    | none => mapGet m f.newName

/-- The byte-buffer writes of `Generate` for one contributing file: the two
file-header lines, then per hunk its header line and its lines verbatim.
Each element of the list is one output line (each Go write ends with a
newline byte). -/
def fileLines (f : FileDiff) (hunks : List Hunk) : List String :=
  ("--- a/" ++ f.oldName) :: ("+++ b/" ++ f.newName) ::
    hunks.flatMap (fun h => h.header :: h.lines.map DiffLine.lineString)

/-- All output lines of `Generate`: files without a matching selection or
without a surviving hunk contribute nothing. -/
def generateLines (parsed : ParsedDiff) (sels : List FileSelection) :
    List String :=
  let selMap := newSelectionMap sels
  parsed.files.flatMap (fun file =>
    match lookupSel selMap file with
    | none => []
    | some sel =>
      let fh := filterHunks file.hunks sel
      if fh.isEmpty then [] else fileLines file fh)

/-- `patch.Generate`: the buffer contents (one trailing newline per written
line) together with the always-`nil` error of the source. -/
def generate (parsed : ParsedDiff) (sels : List FileSelection) :
    Except String String :=
  .ok (String.join ((generateLines parsed sels).map (fun l => l ++ "\n")))

/-! ## Frame effect of `Generate` on its selection arguments

`NewSelectionMap` stores, for the first selection seen for each path, a
pointer to the caller's `FileSelection`; a later selection with the same
path appends its ranges to that object and re-merges them in place, so the
caller observes the mutation.  Selections that are not the first occurrence
of their path are only read.  `Generate` performs no other write to its
arguments (`buildHunkFromBlock` copies lines into a fresh slice).  The
post-state of the argument list is therefore: first occurrence of a path
mapsto the final map entry for that path, everything else unchanged. -/

def finalSelsAux (m : List (String × FileSelection)) :
    List FileSelection → List String → List FileSelection
  | [], _ => []
  | s :: rest, seen =>
    (if seen.contains s.path then s else (mapGet m s.path).getD s) ::
      finalSelsAux m rest (s.path :: seen)

/-- The post-state of `Generate`'s `selections` argument (see the section
comment above). -/
def generateFinalSels (sels : List FileSelection) : List FileSelection :=
  finalSelsAux (newSelectionMap sels) sels []

/-- Decidable equality for `Except`, used by concrete evaluations. -/
instance exceptDecEq {ε α : Type} [DecidableEq ε] [DecidableEq α] :
    DecidableEq (Except ε α) := fun x y =>
  match x, y with
  | .ok a, .ok b =>
    if h : a = b then .isTrue (by rw [h])
    else .isFalse (by intro hh; cases hh; exact h rfl)
  | .error a, .error b =>
    if h : a = b then .isTrue (by rw [h])
    else .isFalse (by intro hh; cases hh; exact h rfl)
  | .ok _, .error _ => .isFalse (by intro hh; cases hh)
  | .error _, .ok _ => .isFalse (by intro hh; cases hh)

/-! ## Character-level string helpers

Go strings are byte arrays scanned directly; the embedding models them as
character lists (`String.toList`).  The helpers below translate the Go
standard-library calls used by the source (`strings.Contains`,
`strings.HasPrefix`, `strings.TrimSpace`, `strings.ToLower`,
`strings.Split*`, `strings.Fields`, slicing); all strings the source
manipulates structurally are ASCII, where byte-wise and character-wise
scanning agree. -/

/-- `strings.Contains(s, string(c))` for a one-character needle. -/
def strContains (s : String) (c : Char) : Bool :=
  s.toList.contains c

/-- `strings.HasPrefix(s, p)`. -/
def strStartsWith (s p : String) : Bool :=
  p.toList.isPrefixOf s.toList

/-- The slice `s[n:]` (ASCII: byte offsets and character offsets agree). -/
def strDrop (s : String) (n : Nat) : String :=
  ⟨s.toList.drop n⟩

/-- `strings.ToLower` (ASCII). -/
def strToLower (s : String) : String :=
  ⟨s.toList.map Char.toLower⟩

/-- The white-space class of `strings.TrimSpace` / `strings.Fields`
(ASCII part of `unicode.IsSpace`). -/
def isSpaceChar (c : Char) : Bool :=
  c = ' ' || c = '\t' || c = '\n' || c = '\r' ||
  c = Char.ofNat 11 || c = Char.ofNat 12

/-- `strings.TrimSpace` (ASCII white space). -/
def strTrim (s : String) : String :=
  ⟨((s.toList.dropWhile isSpaceChar).reverse.dropWhile
    isSpaceChar).reverse⟩

/-- Splitting a character list at every separator character: the loop
behind `strings.Split` for a one-character separator.  `acc` holds the
current segment reversed. -/
def splitPredAux (p : Char → Bool) : List Char → List Char → List String
  | [], acc => [⟨acc.reverse⟩]
  | a :: rest, acc =>
    if p a then ⟨acc.reverse⟩ :: splitPredAux p rest []
    else splitPredAux p rest (a :: acc)

/-- `strings.Split(s, string(c))` for a one-character separator. -/
def strSplitOnChar (s : String) (c : Char) : List String :=
  splitPredAux (fun a => a = c) s.toList []

/-- `strings.Fields`: maximal runs of non-white-space characters. -/
def strFields (s : String) : List String :=
  (splitPredAux isSpaceChar s.toList []).filter (fun f => f ≠ "")

/-! ## rebase package : actions, specs, validation -/

/-- `ActionType` is an open string type in the source (`type ActionType
string`); it is modelled as `String` with the seven recognised values. -/
def actionTypeValid (a : String) : Bool :=
  a = "pick" || a = "reword" || a = "edit" || a = "squash" ||
  a = "fixup" || a = "drop" || a = "exec"

/-- `RebaseAction`: one declarative rebase operation. -/
structure RebaseAction where
  action : String
  commit : String
  message : String
  command : String
deriving DecidableEq, Repr

/-- `RebaseAction.Validate`: `none` means the Go method returned `nil`;
`some msg` carries the error text. -/
def validateAction (a : RebaseAction) : Option String :=
  if ¬ actionTypeValid a.action then
    some ("invalid action type: " ++ a.action)
  else if a.action = "exec" then
    if a.command = "" then some "exec action requires a command"
    else if strContains a.command '\n' then
      some "exec command cannot contain newlines"
    else none
  else if a.commit = "" then
    some (a.action ++ " action requires a commit hash")
  else none

/-- `RebaseSpec`: ordered action list. -/
structure RebaseSpec where
  actions : List RebaseAction
deriving DecidableEq, Repr

/-- The validation loop of `RebaseSpec.Validate`: the first failing
action's error, wrapped with its 1-based index. -/
def firstActionErr (i : Nat) : List RebaseAction → Option String
  | [] => none
  | a :: rest =>
    match validateAction a with
    | some e => some ("action " ++ toString (i + 1) ++ ": " ++ e)
    | none => firstActionErr (i + 1) rest

/-- `RebaseSpec.Validate`: emptiness check, per-action check, then the
no-leading-squash/fixup check. -/
def specValidate (s : RebaseSpec) : Option String :=
  if s.actions.length = 0 then some "rebase spec has no actions"
  else
    match firstActionErr 0 s.actions with
    | some e => some e
    | none =>
      match s.actions with
      | [] => none
      | first :: _ =>
        if first.action = "squash" || first.action = "fixup" then
          some ("cannot start with " ++ first.action ++
            ": no previous commit to combine with")
        else none

/-- Hex digit test of `isCommitHash`. -/
def isHexDigit (c : Char) : Bool :=
  ('0' ≤ c && c ≤ '9') || ('a' ≤ c && c ≤ 'f') || ('A' ≤ c && c ≤ 'F')

/-- `isCommitHash`: 7 to 40 hex characters.  (Go measures bytes; a string
passing the all-hex test is ASCII, where bytes and characters agree.) -/
def isCommitHash (s : String) : Bool :=
  decide (7 ≤ s.length) && decide (s.length ≤ 40) && s.toList.all isHexDigit

/-- `parseActionSpec` from `rebase/spec.go`.  Splitting on the first colon
is expressed through `splitOn`: for a token containing a colon,
`before` is the text before the first colon and `rest` the remainder
(`strings.Index` / `SplitN` in the source). -/
def parseActionSpec (s : String) : Except String RebaseAction :=
  match strSplitOnChar s ':' with
  | [] => .ok ⟨"pick", s, "", ""⟩
  | [_] => .ok ⟨"pick", s, "", ""⟩
  | before :: r1 :: rs =>
    if isCommitHash s then .ok ⟨"pick", s, "", ""⟩
    else
      let actionStr := strToLower before
      let rest := String.intercalate ":" (r1 :: rs)
      if actionTypeValid actionStr then
        if actionStr = "exec" then .ok ⟨"exec", "", "", rest⟩
        else
          match rs with
          | [] => .ok ⟨actionStr, strTrim rest, "", ""⟩
          | _ :: _ =>
            .ok ⟨actionStr, strTrim r1, strTrim (String.intercalate ":" rs), ""⟩
      else if isCommitHash s then .ok ⟨"pick", s, "", ""⟩
      else .error ("unknown action: " ++ actionStr)

/-- State of `splitPreservingQuotes`' character loop. -/
structure SplitState where
  result : List String
  current : String
  inQuotes : Bool
  quoteChar : Char

/-- One iteration of `splitPreservingQuotes`' switch. -/
def splitQuoteStep (st : SplitState) (c : Char) : SplitState :=
  if (c = '"' || c = '\'') && !st.inQuotes then
    { st with
      inQuotes := true
      quoteChar := c
      current := st.current.push c }
  else if c = st.quoteChar && st.inQuotes then
    { st with
      inQuotes := false
      quoteChar := Char.ofNat 0
      current := st.current.push c }
  else if c = ',' && !st.inQuotes then
    if 0 < st.current.length then
      { st with result := st.result ++ [st.current], current := "" }
    else st
  else { st with current := st.current.push c }

/-- `splitPreservingQuotes`: split on commas outside quotes, dropping
empty segments produced by consecutive commas. -/
def splitPreservingQuotes (s : String) : List String :=
  let st := s.toList.foldl splitQuoteStep ⟨[], "", false, Char.ofNat 0⟩
  if 0 < st.current.length then st.result ++ [st.current] else st.result

/-- The token loop of `ParseCLISpec`: trims each part, skips empties, and
stops at the first `parseActionSpec` error (wrapped as in the source). -/
def collectActions : List String → Except String (List RebaseAction)
  | [] => .ok []
  | p :: rest =>
    let part := strTrim p
    if part = "" then collectActions rest
    else
      match parseActionSpec part with
      | .error e => .error ("invalid action " ++ part ++ ": " ++ e)
      | .ok a => (collectActions rest).map (fun l => a :: l)

/-- `ParseCLISpec`: join the arguments with commas, split preserving
quotes, parse each token, then validate the spec. -/
def parseCLISpec (args : List String) : Except String RebaseSpec :=
  if args.length = 0 then .error "no rebase actions specified"
  else
    match collectActions (splitPreservingQuotes
        (String.intercalate "," args)) with
    | .error e => .error e
    | .ok actions =>
      match specValidate ⟨actions⟩ with
      | some e => .error e
      | none => .ok ⟨actions⟩

/-! ## rebase/todo.go : todo-file parsing -/

/-- `expandShortAction`: single-letter verbs map to the long form; any
other string is returned unchanged (the open-enum default case). -/
def expandShortAction (s : String) : String :=
  if s = "p" || s = "pick" then "pick"
  else if s = "r" || s = "reword" then "reword"
  else if s = "e" || s = "edit" then "edit"
  else if s = "s" || s = "squash" then "squash"
  else if s = "f" || s = "fixup" then "fixup"
  else if s = "d" || s = "drop" then "drop"
  else if s = "x" || s = "exec" then "exec"
  else s

/-- `TodoEntry`: one parsed line of a rebase todo file. -/
structure TodoEntry where
  action : String
  commit : String
  subject : String
deriving DecidableEq, Repr

/-- `strings.Fields`: whitespace-separated fields. -/
def fieldsOf (line : String) : List String :=
  strFields line

/-- `parseTodoLine`: fewer than two fields or an unrecognised verb yields
`none` (the Go `ok=false`); otherwise the action is expanded, the second
field is the commit and the remaining fields joined are the subject. -/
def parseTodoLine (line : String) : Option TodoEntry :=
  match fieldsOf line with
  | f0 :: f1 :: rest =>
    let action := expandShortAction (strToLower f0)
    if actionTypeValid action then
      some ⟨action, f1, String.intercalate " " rest⟩
    else none
  | _ => none

/-- The scanner loop of `ParseTodoFile` over the physical lines: trim,
skip blanks and `#` comments, keep successfully parsed entries. -/
def parseTodoLines : List String → List TodoEntry
  | [] => []
  | l :: rest =>
    let line := strTrim l
    if line = "" || strStartsWith line "#" then parseTodoLines rest
    else
      match parseTodoLine line with
      | some e => e :: parseTodoLines rest
      | none => parseTodoLines rest

/-- `ParseTodoFile`: the scanner yields the newline-separated physical
lines (a trailing carriage return is removed by the trim either way). -/
def parseTodoFile (content : String) : List TodoEntry :=
  parseTodoLines (strSplitOnChar content '\n')

/-! ## Autosquash planner (`commands`, `buildAutosquashPlan` and helpers)

`git.CommitInfo` carries more fields (short hash, author, date); the
planner reads only `Hash` and `Subject`, so only those are modelled. -/

/-- The two fields of `git.CommitInfo` the autosquash planner reads. -/
structure CommitInfo where
  hash : String
  subject : String
deriving DecidableEq, Repr

/-- `isFixupCommit`. -/
def isFixupCommit (subject : String) : Bool :=
  strStartsWith subject "fixup! "

/-- `isSquashCommit`. -/
def isSquashCommit (subject : String) : Bool :=
  strStartsWith subject "squash! "

/-- `strings.TrimPrefix`.  (The prefixes used here are ASCII, where Go's
byte slicing and character dropping agree.) -/
def trimPfx (s p : String) : String :=
  if strStartsWith s p then strDrop s p.length else s

/-- Insertion into the `subjectToHash` map: Go map assignment overwrites
the previous value for an existing key. -/
def upsertSubject (m : List (String × String)) (k v : String) :
    List (String × String) :=
  match m with
  | [] => [(k, v)]
  | (k0, v0) :: rest =>
    if k0 = k then (k, v) :: rest else (k0, v0) :: upsertSubject rest k v

/-- The first pass of `buildAutosquashPlan`: index the subjects of the
non-fixup, non-squash commits. -/
def subjectIndex (commits : List CommitInfo) : List (String × String) :=
  commits.foldl (fun m c =>
    if ¬ isFixupCommit c.subject && ¬ isSquashCommit c.subject then
      upsertSubject m c.subject c.hash
    else m) []

/-- Exact lookup in `subjectToHash`. -/
def lookupSubject (m : List (String × String)) (k : String) :
    Option String :=
  (m.find? (fun e => e.1 = k)).map (fun e => e.2)

/-- The subject-prefix scan of `findTargetCommit` (`for subj, hash :=
range subjectToHash`).  Go map iteration order is unspecified; the model
scans in insertion order.  Every theorem below evaluates this scan only in
situations where it matches nothing or where the exact-match branch
already fired, so the modelled order is immaterial. -/
def findBySubjectStart (m : List (String × String)) (t : String) :
    Option String :=
  (m.find? (fun e => strStartsWith e.1 t)).map (fun e => e.2)

/-- `findTargetCommit`: exact subject match, then subject-prefix match,
then one nested `fixup!`/`squash!` layer stripped recursively.  The Go
recursion does not terminate on nested `squash!` subjects (stripping with
the `"fixup! "` prefix leaves them unchanged); the model spends one unit
of fuel per recursive call and callers pass more fuel than any terminating
run of the source consumes, so on every input where the Go function
returns, the model returns the same value. -/
def findTargetCommit (fuel : Nat) (subject pfx : String)
    (m : List (String × String)) : String :=
  match fuel with
  | 0 => ""
  | fuel + 1 =>
    let targetSubject := trimPfx subject pfx
    match lookupSubject m targetSubject with
    | some h => h
    | none =>
      match findBySubjectStart m targetSubject with
      | some h => h
      | none =>
        if strStartsWith targetSubject "fixup! " ||
            strStartsWith targetSubject "squash! " then
          findTargetCommit fuel targetSubject "fixup! " m
        else ""

/-- `commitEntry` from the autosquash planner. -/
structure CommitEntry where
  info : CommitInfo
  action : String
  target : String
deriving DecidableEq, Repr

/-- The second pass of `buildAutosquashPlan`: one entry per commit, with
fixup/squash commits resolved to their target hash (empty string when
resolution fails). -/
def entriesOf (commits : List CommitInfo) : List CommitEntry :=
  let m := subjectIndex commits
  commits.map (fun c =>
    if isFixupCommit c.subject then
      ⟨c, "fixup", findTargetCommit (c.subject.length + 1) c.subject
        "fixup! " m⟩
    else if isSquashCommit c.subject then
      ⟨c, "squash", findTargetCommit (c.subject.length + 1) c.subject
        "squash! " m⟩
    else ⟨c, "pick", ""⟩)

/-- `fixupsByTarget` lookup: the entries with the given non-empty target,
in original order (the Go map groups them per target key). -/
def fixupsFor (entries : List CommitEntry) (t : String) : List CommitEntry :=
  entries.filter (fun e => e.target ≠ "" && e.target = t)

/-- The inner loop of `reorderForAutosquash` that appends the fixups
targeting a just-placed commit, skipping already-placed ones. -/
def placeFixups : List CommitEntry → List String →
    List CommitEntry × List String
  | [], placed => ([], placed)
  | f :: fs, placed =>
    if placed.contains f.info.hash then placeFixups fs placed
    else
      ((f :: (placeFixups fs (f.info.hash :: placed)).1),
        (placeFixups fs (f.info.hash :: placed)).2)

/-- The main placement loop of `reorderForAutosquash`: skips placed
entries and entries with a (non-empty) target; places everything else
followed by its pending fixups. -/
def mainLoop (all : List CommitEntry) :
    List CommitEntry → List String → List CommitEntry × List String
  | [], placed => ([], placed)
  | e :: rest, placed =>
    if placed.contains e.info.hash then mainLoop all rest placed
    else if e.target ≠ "" then mainLoop all rest placed
    else
      ((e :: ((placeFixups (fixupsFor all e.info.hash)
          (e.info.hash :: placed)).1 ++
        (mainLoop all rest (placeFixups (fixupsFor all e.info.hash)
          (e.info.hash :: placed)).2).1)),
        (mainLoop all rest (placeFixups (fixupsFor all e.info.hash)
          (e.info.hash :: placed)).2).2)

/-- The final loop of `reorderForAutosquash`: entries never placed are
appended in original order (without updating the placed set). -/
def remainingEntries : List CommitEntry → List String → List CommitEntry
  | [], _ => []
  | e :: rest, placed =>
    if placed.contains e.info.hash then remainingEntries rest placed
    else e :: remainingEntries rest placed

/-- `reorderForAutosquash`. -/
def reorderForAutosquash (entries : List CommitEntry) : List CommitEntry :=
  (mainLoop entries entries []).1 ++
    remainingEntries entries (mainLoop entries entries []).2

/-- `buildAutosquashPlan`: the reordered spec plus the fixup count. -/
def buildAutosquashPlan (commits : List CommitInfo) : RebaseSpec × Nat :=
  (⟨(reorderForAutosquash (entriesOf commits)).map
      (fun e => ⟨e.action, e.info.hash, "", ""⟩)⟩,
    (commits.filter (fun c =>
      isFixupCommit c.subject || isSquashCommit c.subject)).length)

/-! ## Concrete inputs used by the claim theorems -/

/-- The atomic-replacement example of the specification: one hunk deleting
old-lines 2 to 5 and adding new-lines 2 and 3 with no separating
context. -/
def mixedGroupHunk : Hunk :=
  { oldStart := 1, oldLines := 7, newStart := 1, newLines := 4,
    sectionLabel := "",
    lines := [
      ⟨.opContext, "package main", 1, 1⟩,
      ⟨.opDelete, "old1", 2, 0⟩,
      ⟨.opDelete, "old2", 3, 0⟩,
      ⟨.opDelete, "old3", 4, 0⟩,
      ⟨.opDelete, "old4", 5, 0⟩,
      ⟨.opAdd, "new1", 0, 2⟩,
      ⟨.opAdd, "new2", 0, 3⟩,
      ⟨.opContext, "endline", 6, 4⟩] }

/-- A one-file diff holding `mixedGroupHunk`. -/
def mixedGroupDiff : ParsedDiff :=
  ⟨[{ oldName := "main.go", newName := "main.go", hunks := [mixedGroupHunk],
      isBinary := false, isNew := false, isDeleted := false,
      isRenamed := false }]⟩

/-- The hunk-split scenario: a single hunk with additions at new-lines 2,
6 and 8 separated by context, with arbitrary line contents. -/
def splitScenarioHunk (c1 c2 c3 c4 c5 c6 c7 c8 c9 : String) : Hunk :=
  { oldStart := 1, oldLines := 7, newStart := 1, newLines := 10,
    sectionLabel := "",
    lines := [
      ⟨.opContext, c1, 1, 1⟩,
      ⟨.opAdd, c2, 0, 2⟩,
      ⟨.opContext, c3, 2, 3⟩,
      ⟨.opContext, c4, 3, 4⟩,
      ⟨.opContext, c5, 4, 5⟩,
      ⟨.opAdd, c6, 0, 6⟩,
      ⟨.opContext, c7, 5, 7⟩,
      ⟨.opAdd, c8, 0, 8⟩,
      ⟨.opContext, c9, 6, 9⟩] }

/-- The file diff of the hunk-split scenario. -/
def splitScenarioFile (c1 c2 c3 c4 c5 c6 c7 c8 c9 : String) : FileDiff :=
  { oldName := "main.go", newName := "main.go",
    hunks := [splitScenarioHunk c1 c2 c3 c4 c5 c6 c7 c8 c9],
    isBinary := false, isNew := false, isDeleted := false,
    isRenamed := false }

/-- A one-file diff holding the hunk-split scenario. -/
def splitScenarioDiff (c1 c2 c3 c4 c5 c6 c7 c8 c9 : String) : ParsedDiff :=
  ⟨[splitScenarioFile c1 c2 c3 c4 c5 c6 c7 c8 c9]⟩

/-- Expected first output hunk of the hunk-split scenario: the addition at
new-line 2 with its surrounding context. -/
def splitOutFirst (c1 c2 c3 c4 c5 : String) : Hunk :=
  { oldStart := 1, oldLines := 4, newStart := 1, newLines := 5,
    sectionLabel := "",
    lines := [⟨.opContext, c1, 1, 1⟩, ⟨.opAdd, c2, 0, 2⟩,
      ⟨.opContext, c3, 2, 3⟩, ⟨.opContext, c4, 3, 4⟩,
      ⟨.opContext, c5, 4, 5⟩] }

/-- Expected second output hunk of the hunk-split scenario: the addition
at new-line 8 with its surrounding context. -/
def splitOutSecond (c7 c8 c9 : String) : Hunk :=
  { oldStart := 5, oldLines := 2, newStart := 7, newLines := 3,
    sectionLabel := "",
    lines := [⟨.opContext, c7, 5, 7⟩, ⟨.opAdd, c8, 0, 8⟩,
      ⟨.opContext, c9, 6, 9⟩] }

/-- The autosquash example of the specification: commits `A`, `B` and
`fixup! A` in that order. -/
def autosquashCommits : List CommitInfo :=
  [⟨"aaaaaaa1", "A"⟩, ⟨"bbbbbbb2", "B"⟩, ⟨"ccccccc3", "fixup! A"⟩]

/-- A commit list whose fixup commit has an unresolvable target: no commit
has subject `X`, none has a subject starting with `X`, and `X` carries no
nested `fixup!`/`squash!` marker. -/
def unresolvedFixupCommits : List CommitInfo :=
  [⟨"fffffff1", "fixup! X"⟩, ⟨"aaaaaaa1", "A"⟩]

/-! ## Coverage predicate for line-range lists -/

/-- A line number is covered by a range list when some range contains it
(the set of covered integers of the specification). -/
def coveredPred (rs : List LineRange) (n : Int) : Prop :=
  ∃ r ∈ rs, r.containsLine n = true

/-! ## Claim theorems (concrete scenarios) -/

/-- C1.  The claim asserts atomicity of mixed replacement groups in
`Generate`'s output.  The code violates it: on the specification's own
example (hunk deleting old-lines 2-5 and adding new-lines 2-3 with no
separating context, selection of new-line 2 only), `findChangeBlocks`
breaks the group at every unselected change line, so the generated patch
contains only the deletion at old-line 2 and the addition at new-line 2,
split over two hunks — not the full group in one hunk.  The repository's
own test suite (`TestGenerate_NonContiguousSelections`, cases "mixed
replacement group is atomic ...") requires the atomic behaviour, so the
claim reflects the intent and the code is the slip. -/
theorem C1_mixed_group_not_atomic_eval :
    generate mixedGroupDiff [⟨"main.go", [⟨2, 2⟩]⟩] =
      .ok ("--- a/main.go\n+++ b/main.go\n@@ -1,2 +1,1 @@\n package main\n" ++
        "-old1\n@@ -6,0 +2,1 @@\n+new1\n") ∧
    "-old2" ∉ generateLines mixedGroupDiff [⟨"main.go", [⟨2, 2⟩]⟩] ∧
    "-old3" ∉ generateLines mixedGroupDiff [⟨"main.go", [⟨2, 2⟩]⟩] ∧
    "-old4" ∉ generateLines mixedGroupDiff [⟨"main.go", [⟨2, 2⟩]⟩] ∧
    "+new2" ∉ generateLines mixedGroupDiff [⟨"main.go", [⟨2, 2⟩]⟩] ∧
    (generateLines mixedGroupDiff [⟨"main.go", [⟨2, 2⟩]⟩]).countP
      (fun l => strStartsWith l "@@") = 2 := by
  decide

/-- C2.  For a single source hunk with additions at new-lines 2, 6 and 8
(arbitrary contents) and the selection covering exactly new-lines 2 and 8,
the engine produces exactly two output hunks: the first carries the
addition at new-line 2, the second the addition at new-line 8, and the
addition at new-line 6 appears in neither; `Generate`'s output is exactly
the file header plus those two hunks. -/
theorem C2_hunk_split_two_hunks (c1 c2 c3 c4 c5 c6 c7 c8 c9 : String) :
    filterHunk (splitScenarioHunk c1 c2 c3 c4 c5 c6 c7 c8 c9)
        ⟨"main.go", [⟨2, 2⟩, ⟨8, 8⟩]⟩ =
      [splitOutFirst c1 c2 c3 c4 c5, splitOutSecond c7 c8 c9] ∧
    (⟨.opAdd, c2, 0, 2⟩ : DiffLine) ∈ (splitOutFirst c1 c2 c3 c4 c5).lines ∧
    (⟨.opAdd, c8, 0, 8⟩ : DiffLine) ∈ (splitOutSecond c7 c8 c9).lines ∧
    (⟨.opAdd, c6, 0, 6⟩ : DiffLine) ∉
      (splitOutFirst c1 c2 c3 c4 c5).lines ++ (splitOutSecond c7 c8 c9).lines ∧
    generateLines (splitScenarioDiff c1 c2 c3 c4 c5 c6 c7 c8 c9)
        [⟨"main.go", [⟨2, 2⟩, ⟨8, 8⟩]⟩] =
      fileLines (splitScenarioFile c1 c2 c3 c4 c5 c6 c7 c8 c9)
        [splitOutFirst c1 c2 c3 c4 c5, splitOutSecond c7 c8 c9] := by
  refine ⟨rfl, ?_, ?_, ?_, rfl⟩
  · simp [splitOutFirst]
  · simp [splitOutSecond]
  · simp [splitOutFirst, splitOutSecond]

/-- C5.  On the specification's autosquash example (commits `A`, `B`,
`fixup! A` in that order), the plan places the fixup immediately after its
target `A` and before `B`, preserving the order of the non-fixup commits,
and reports one fixup applied. -/
theorem C5_autosquash_fixup_after_target :
    buildAutosquashPlan autosquashCommits =
      (⟨[⟨"pick", "aaaaaaa1", "", ""⟩, ⟨"fixup", "ccccccc3", "", ""⟩,
         ⟨"pick", "bbbbbbb2", "", ""⟩]⟩, 1) := by
  decide

/-- C6 counterexample.  For the commit list `[fixup! X, A]` the fixup's
target resolution fails (`entriesOf` computes an empty target), yet the
plan keeps the fixup at its original first position: it is not placed at
the end of the reordering, contradicting the claim. -/
theorem C6_unresolved_fixup_kept_counterexample :
    (entriesOf unresolvedFixupCommits).map (fun e => e.target) = ["", ""] ∧
    (buildAutosquashPlan unresolvedFixupCommits).1.actions =
      [⟨"fixup", "fffffff1", "", ""⟩, ⟨"pick", "aaaaaaa1", "", ""⟩] ∧
    (buildAutosquashPlan unresolvedFixupCommits).1.actions.getLast? ≠
      some ⟨"fixup", "fffffff1", "", ""⟩ := by
  decide

/-- C7 counterexample.  A single-letter action before the colon is not
resolved: `parseActionSpec` (and hence `ParseCLISpec`) rejects `p:abc1234`
with "unknown action", contradicting the claim that short forms are
accepted in CLI shorthand tokens. -/
theorem C7_single_letter_rejected_counterexample :
    parseActionSpec "p:abc1234" = .error "unknown action: p" ∧
    parseCLISpec ["p:abc1234"] =
      .error "invalid action p:abc1234: unknown action: p" := by
  decide

/-- C7 amended.  In CLI shorthand tokens the substring before the first
colon is resolved for full action names only; every single-letter short
form is rejected with "unknown action" (short verbs are accepted only by
the todo-file parser). -/
theorem C7_full_names_resolved :
    parseActionSpec "pick:abc1234" = .ok ⟨"pick", "abc1234", "", ""⟩ ∧
    parseActionSpec "reword:abc1234" = .ok ⟨"reword", "abc1234", "", ""⟩ ∧
    parseActionSpec "edit:abc1234" = .ok ⟨"edit", "abc1234", "", ""⟩ ∧
    parseActionSpec "squash:abc1234" = .ok ⟨"squash", "abc1234", "", ""⟩ ∧
    parseActionSpec "fixup:abc1234" = .ok ⟨"fixup", "abc1234", "", ""⟩ ∧
    parseActionSpec "drop:abc1234" = .ok ⟨"drop", "abc1234", "", ""⟩ ∧
    parseActionSpec "exec:make test" = .ok ⟨"exec", "", "", "make test"⟩ ∧
    parseActionSpec "p:abc1234" = .error "unknown action: p" ∧
    parseActionSpec "r:abc1234" = .error "unknown action: r" ∧
    parseActionSpec "e:abc1234" = .error "unknown action: e" ∧
    parseActionSpec "s:abc1234" = .error "unknown action: s" ∧
    parseActionSpec "f:abc1234" = .error "unknown action: f" ∧
    parseActionSpec "d:abc1234" = .error "unknown action: d" ∧
    parseActionSpec "x:abc1234" = .error "unknown action: x" := by
  decide

/-! ## Lemmas and theorems for spec validation (C8) -/

theorem firstActionErr_isSome (i : Nat) (l : List RebaseAction)
    (a : RebaseAction) (hmem : a ∈ l)
    (ha : (validateAction a).isSome = true) :
    (firstActionErr i l).isSome = true := by
  induction l generalizing i with
  | nil => cases hmem
  | cons b rest ih =>
    simp only [firstActionErr]
    cases hb : validateAction b with
    | some e => simp
    | none =>
      rcases List.mem_cons.mp hmem with h | h
      · subst h
        rw [hb] at ha
        cases ha
      · exact ih (i + 1) h

/-- C8.  An exec action whose command contains a newline character fails
`Validate` whatever the other fields hold, and any spec containing such an
action fails spec validation. -/
theorem C8_exec_newline_fails_validation (s : RebaseSpec) (a : RebaseAction)
    (hmem : a ∈ s.actions) (hact : a.action = "exec")
    (hnl : strContains a.command '\n' = true) :
    (validateAction a).isSome = true ∧ (specValidate s).isSome = true := by
  have hv : (validateAction a).isSome = true := by
    unfold validateAction
    rw [hact]
    rw [if_neg (by decide : ¬ ¬ actionTypeValid "exec" = true)]
    rw [if_pos rfl]
    by_cases hc : a.command = ""
    · rw [if_pos hc]
      simp
    · rw [if_neg hc, if_pos hnl]
      simp
  refine ⟨hv, ?_⟩
  unfold specValidate
  split
  · simp
  · have hfe := firstActionErr_isSome 0 s.actions a hmem hv
    cases hf : firstActionErr 0 s.actions with
    | none => rw [hf] at hfe; cases hfe
    | some e => simp [hf]

/-- C8 witness: a concrete exec action with an embedded newline inside a
concrete spec. -/
theorem C8_exec_newline_fails_validation_witness :
    (validateAction ⟨"exec", "", "", "make test\npick deadbee"⟩).isSome =
        true ∧
      (specValidate ⟨[⟨"pick", "abc1234", "", ""⟩,
        ⟨"exec", "", "", "make test\npick deadbee"⟩]⟩).isSome = true :=
  C8_exec_newline_fails_validation
    ⟨[⟨"pick", "abc1234", "", ""⟩, ⟨"exec", "", "", "make test\npick deadbee"⟩]⟩
    ⟨"exec", "", "", "make test\npick deadbee"⟩
    (by decide) (by decide) (by decide)

/-! ## Lemmas and theorems for todo-file parsing (C10) -/

theorem splitPredAux_append_sep (p : Char → Bool) (c : Char)
    (hc : p c = true) (l1 l2 : List Char) :
    ∀ acc, splitPredAux p (l1 ++ c :: l2) acc =
      splitPredAux p l1 acc ++ splitPredAux p l2 [] := by
  induction l1 with
  | nil =>
    intro acc
    simp [splitPredAux, hc]
  | cons a l1 ih =>
    intro acc
    simp only [List.cons_append, splitPredAux]
    cases hp : p a with
    | true => simp [ih]
    | false => simp [ih]

theorem splitPredAux_no_sep (p : Char → Bool) (l : List Char)
    (h : ∀ a ∈ l, p a = false) :
    ∀ acc, splitPredAux p l acc = [⟨acc.reverse ++ l⟩] := by
  induction l with
  | nil => intro acc; simp [splitPredAux]
  | cons a l ih =>
    intro acc
    simp only [splitPredAux]
    rw [h a (List.mem_cons_self a l)]
    simp only [Bool.false_eq_true, if_false]
    rw [ih (fun b hb => h b (List.mem_cons_of_mem a hb))]
    simp

theorem parseTodoLines_skips (bad : String)
    (hb : strTrim bad = "" ∨ strStartsWith (strTrim bad) "#" = true ∨
      parseTodoLine (strTrim bad) = none) (l1 l2 : List String) :
    parseTodoLines (l1 ++ bad :: l2) = parseTodoLines (l1 ++ l2) := by
  induction l1 with
  | nil =>
    simp only [List.nil_append, parseTodoLines]
    rcases hb with h | h | h
    · rw [h]
      simp
    · rw [h]
      simp
    · by_cases he : strTrim bad = "" ∨ strStartsWith (strTrim bad) "#" = true
      · rcases he with he | he <;> simp [he]
      · push_neg at he
        rw [if_neg (by simpa using he)]
        rw [h]
  | cons x l1 ih =>
    simp only [List.cons_append, parseTodoLines, List.append_eq, ih]

theorem parseTodoLine_valid (line : String) (e : TodoEntry)
    (h : parseTodoLine line = some e) : actionTypeValid e.action = true := by
  unfold parseTodoLine at h
  split at h
  · dsimp only at h
    split at h
    · cases h
      assumption
    · cases h
  · cases h

theorem parseTodoLines_all_valid (L : List String) :
    ∀ e ∈ parseTodoLines L, actionTypeValid e.action = true := by
  induction L with
  | nil => intro e he; cases he
  | cons x L ih =>
    intro e he
    simp only [parseTodoLines] at he
    split at he
    · exact ih e he
    · cases hx : parseTodoLine (strTrim x) with
      | none => rw [hx] at he; exact ih e he
      | some e2 =>
        rw [hx] at he
        rcases List.mem_cons.mp he with h | h
        · subst h
          exact parseTodoLine_valid _ _ hx
        · exact ih e h

/-- C10.  `ParseTodoFile` is total and failure-free: a blank line, a `#`
comment, or a malformed line (fewer than two fields or an unrecognised
verb, i.e. `parseTodoLine` yields nothing) is silently skipped wherever it
occurs, appending such a line to a file leaves the result unchanged, and
every entry returned carries a recognised action verb. -/
theorem C10_todo_parse_skips_malformed (content bad : String)
    (pre post : List String)
    (hb : strTrim bad = "" ∨ strStartsWith (strTrim bad) "#" = true ∨
      parseTodoLine (strTrim bad) = none)
    (hnl : strContains bad '\n' = false) :
    parseTodoLines (pre ++ bad :: post) = parseTodoLines (pre ++ post) ∧
    parseTodoFile (content ++ "\n" ++ bad) = parseTodoFile content ∧
    (∀ e ∈ parseTodoFile content, actionTypeValid e.action = true) := by
  refine ⟨parseTodoLines_skips bad hb pre post, ?_, ?_⟩
  · unfold parseTodoFile strSplitOnChar
    have htl : (content ++ "\n" ++ bad).toList =
        content.toList ++ '\n' :: bad.toList := by
      show (content.data ++ "\n".data) ++ bad.data =
        content.data ++ '\n' :: bad.data
      simp
    rw [htl]
    rw [splitPredAux_append_sep _ '\n' (by decide)]
    have hnb : ∀ a ∈ bad.toList, (decide (a = '\n')) = false := by
      intro a ha
      cases hdec : decide (a = '\n') with
      | false => rfl
      | true =>
        exfalso
        have haeq : a = '\n' := of_decide_eq_true hdec
        subst haeq
        unfold strContains List.contains at hnl
        rw [List.elem_iff.mpr ha] at hnl
        cases hnl
    rw [splitPredAux_no_sep _ _ hnb]
    have hbad : (⟨([] : List Char).reverse ++ bad.toList⟩ : String) = bad := by
      show (⟨bad.data⟩ : String) = bad
      rfl
    rw [hbad]
    rw [parseTodoLines_skips bad hb _ []]
    rw [List.append_nil]
  · exact parseTodoLines_all_valid _

/-- C10 witness: a file containing a well-formed line, and a malformed
line inserted between well-formed lines. -/
theorem C10_todo_parse_skips_malformed_witness :
    parseTodoLines (["p abc1234 First"] ++ "bogus x y" ::
        ["drop def5678 Second"]) =
      parseTodoLines (["p abc1234 First"] ++ ["drop def5678 Second"]) ∧
    parseTodoFile ("pick abc1234 First" ++ "\n" ++ "bogus x y") =
      parseTodoFile "pick abc1234 First" ∧
    (∀ e ∈ parseTodoFile "pick abc1234 First",
      actionTypeValid e.action = true) :=
  C10_todo_parse_skips_malformed "pick abc1234 First" "bogus x y"
    ["p abc1234 First"] ["drop def5678 Second"]
    (by decide) (by decide)

/-! ## Lemmas on the sort inside `Merge` -/

theorem sortPass_len (x : LineRange) (ys : List LineRange) :
    (sortPass x ys).2.length = ys.length := by
  induction ys generalizing x with
  | nil => simp [sortPass]
  | cons y ys ih =>
    simp only [sortPass]
    split <;> simp [ih]

theorem sortPass_perm (x : LineRange) (ys : List LineRange) :
    List.Perm ((sortPass x ys).1 :: (sortPass x ys).2) (x :: ys) := by
  induction ys generalizing x with
  | nil => simp [sortPass]
  | cons y ys ih =>
    simp only [sortPass]
    split
    · exact (List.Perm.swap x _ _).trans ((ih y).cons x)
    · exact (List.Perm.swap y _ _).trans (((ih x).cons y).trans
        (List.Perm.swap x y ys))

theorem sortPass_min (x : LineRange) (ys : List LineRange) :
    (sortPass x ys).1.start ≤ x.start ∧
      ∀ r ∈ (sortPass x ys).2, (sortPass x ys).1.start ≤ r.start := by
  induction ys generalizing x with
  | nil => simp [sortPass]
  | cons y ys ih =>
    simp only [sortPass]
    split
    · rename_i hlt
      obtain ⟨h1, h2⟩ := ih y
      refine ⟨le_trans h1 (le_of_lt hlt), ?_⟩
      intro r hr
      rcases List.mem_cons.mp hr with h | h
      · subst h
        exact le_trans h1 (le_of_lt hlt)
      · exact h2 r h
    · rename_i hge
      push_neg at hge
      obtain ⟨h1, h2⟩ := ih x
      refine ⟨h1, ?_⟩
      intro r hr
      rcases List.mem_cons.mp hr with h | h
      · subst h
        exact le_trans h1 hge
      · exact h2 r h

theorem goSortAux_perm (fuel : Nat) (l : List LineRange)
    (hf : l.length ≤ fuel) : List.Perm (goSortAux fuel l) l := by
  induction fuel generalizing l with
  | zero =>
    cases l with
    | nil => simp [goSortAux]
    | cons x xs => simp at hf
  | succ fuel ih =>
    cases l with
    | nil => simp [goSortAux]
    | cons x xs =>
      simp only [goSortAux]
      have hp := ih (sortPass x xs).2
        (by rw [sortPass_len]; simpa using Nat.le_of_succ_le_succ hf)
      exact (hp.cons _).trans (sortPass_perm x xs)

theorem goSortAux_sorted (fuel : Nat) (l : List LineRange)
    (hf : l.length ≤ fuel) :
    List.Pairwise (fun a b => a.start ≤ b.start) (goSortAux fuel l) := by
  induction fuel generalizing l with
  | zero =>
    cases l with
    | nil => simp [goSortAux]
    | cons x xs => simp at hf
  | succ fuel ih =>
    cases l with
    | nil => simp [goSortAux]
    | cons x xs =>
      simp only [goSortAux]
      have hflen : (sortPass x xs).2.length ≤ fuel := by
        rw [sortPass_len]
        simpa using Nat.le_of_succ_le_succ hf
      refine List.pairwise_cons.mpr ⟨?_, ih _ hflen⟩
      intro b hb
      have hperm := goSortAux_perm fuel (sortPass x xs).2 hflen
      exact (sortPass_min x xs).2 b (hperm.mem_iff.mp hb)

theorem goSort_perm (l : List LineRange) : List.Perm (goSort l) l :=
  goSortAux_perm l.length l le_rfl

theorem goSort_sorted (l : List LineRange) :
    List.Pairwise (fun a b => a.start ≤ b.start) (goSort l) :=
  goSortAux_sorted l.length l le_rfl

/-! ## Lemmas on the coalescing pass and on `Merge` (C4) -/

theorem containsLine_iff (r : LineRange) (n : Int) :
    r.containsLine n = true ↔ r.start ≤ n ∧ n ≤ r.stop := by
  simp [LineRange.containsLine]

theorem coveredPred_cons (r : LineRange) (rs : List LineRange) (n : Int) :
    coveredPred (r :: rs) n ↔ r.containsLine n = true ∨ coveredPred rs n := by
  simp [coveredPred]

theorem coveredPred_perm {l l2 : List LineRange} (h : List.Perm l l2)
    (n : Int) : coveredPred l n ↔ coveredPred l2 n := by
  unfold coveredPred
  constructor
  · rintro ⟨r, hr, hc⟩
    exact ⟨r, h.mem_iff.mp hr, hc⟩
  · rintro ⟨r, hr, hc⟩
    exact ⟨r, h.mem_iff.mpr hr, hc⟩

theorem mergePass_shape (last : LineRange) (rest : List LineRange) :
    ∃ t tail, mergePass last rest = ⟨last.start, t⟩ :: tail := by
  induction rest generalizing last with
  | nil => exact ⟨last.stop, [], rfl⟩
  | cons c rest ih =>
    simp only [mergePass]
    split
    · obtain ⟨t, tail, heq⟩ := ih ⟨last.start, max last.stop c.stop⟩
      exact ⟨t, tail, heq⟩
    · exact ⟨last.stop, mergePass c rest, rfl⟩

theorem mergePass_cov (last : LineRange) (rest : List LineRange)
    (hseed : ∀ r ∈ rest, last.start ≤ r.start)
    (hsort : List.Pairwise (fun a b => a.start ≤ b.start) rest) (n : Int) :
    coveredPred (mergePass last rest) n ↔
      (last.containsLine n = true ∨ coveredPred rest n) := by
  induction rest generalizing last with
  | nil => simp [mergePass, coveredPred]
  | cons c rest ih =>
    simp only [mergePass]
    split
    · rename_i hle
      have hlc : last.start ≤ c.start := hseed c (List.mem_cons_self c rest)
      rw [ih ⟨last.start, max last.stop c.stop⟩
        (fun r hr => hseed r (List.mem_cons_of_mem c hr)) hsort.of_cons]
      have key : (⟨last.start, max last.stop c.stop⟩ :
          LineRange).containsLine n = true ↔
          (last.containsLine n = true ∨ c.containsLine n = true) := by
        simp only [containsLine_iff]
        rcases le_total last.stop c.stop with hm | hm
        · rw [max_eq_right hm]
          omega
        · rw [max_eq_left hm]
          omega
      rw [key, coveredPred_cons, or_assoc]
    · rename_i hgt
      rw [coveredPred_cons]
      rw [ih c (fun r hr => (List.pairwise_cons.mp hsort).1 r hr)
        hsort.of_cons]
      rw [coveredPred_cons]

theorem mergePass_chain (last : LineRange) (rest : List LineRange)
    (hseed : ∀ r ∈ rest, last.start ≤ r.start)
    (hsort : List.Pairwise (fun a b => a.start ≤ b.start) rest) :
    List.Chain' (fun a b => a.stop + 1 < b.start) (mergePass last rest) := by
  induction rest generalizing last with
  | nil => simp [mergePass]
  | cons c rest ih =>
    simp only [mergePass]
    split
    · exact ih ⟨last.start, max last.stop c.stop⟩
        (fun r hr => hseed r (List.mem_cons_of_mem c hr)) hsort.of_cons
    · rename_i hgt
      push_neg at hgt
      have hch := ih c (fun r hr => (List.pairwise_cons.mp hsort).1 r hr)
        hsort.of_cons
      obtain ⟨t, tail, heq⟩ := mergePass_shape c rest
      rw [heq]
      rw [heq] at hch
      exact List.chain'_cons.mpr ⟨hgt, hch⟩

theorem mergePass_valid (last : LineRange) (rest : List LineRange)
    (hl : last.start ≤ last.stop) (hr : ∀ r ∈ rest, r.start ≤ r.stop) :
    ∀ r ∈ mergePass last rest, r.start ≤ r.stop := by
  induction rest generalizing last with
  | nil =>
    intro r hrm
    simp only [mergePass, List.mem_singleton] at hrm
    subst hrm
    exact hl
  | cons c rest ih =>
    intro r hrm
    simp only [mergePass] at hrm
    split at hrm
    · exact ih ⟨last.start, max last.stop c.stop⟩
        (le_trans hl (le_max_left _ _))
        (fun q hq => hr q (List.mem_cons_of_mem c hq)) r hrm
    · rcases List.mem_cons.mp hrm with h | h
      · subst h
        exact hl
      · exact ih c (hr c (List.mem_cons_self c rest))
          (fun q hq => hr q (List.mem_cons_of_mem c hq)) r h

theorem chainGap_pairwise (l : List LineRange)
    (hchain : List.Chain' (fun a b => a.stop + 1 < b.start) l)
    (hvalid : ∀ r ∈ l, r.start ≤ r.stop) :
    List.Pairwise (fun a b => a.stop + 1 < b.start) l := by
  induction l with
  | nil => simp
  | cons a t ih =>
    rw [List.pairwise_cons]
    have iht := ih hchain.tail
      (fun r hr => hvalid r (List.mem_cons_of_mem a hr))
    refine ⟨?_, iht⟩
    intro b hb
    cases t with
    | nil => cases hb
    | cons h2 t2 =>
      have hah : a.stop + 1 < h2.start := (List.chain'_cons.mp hchain).1
      rcases List.mem_cons.mp hb with hbe | hbe
      · subst hbe
        exact hah
      · have hhb : h2.stop + 1 < b.start :=
          (List.pairwise_cons.mp iht).1 b hbe
        have hhv : h2.start ≤ h2.stop :=
          hvalid h2 (List.mem_cons_of_mem a (List.mem_cons_self h2 t2))
        omega

theorem mergeRanges_cov (rs : List LineRange) (n : Int) :
    coveredPred (mergeRanges rs) n ↔ coveredPred rs n := by
  unfold mergeRanges
  split
  · exact Iff.rfl
  · rename_i hlen
    cases hgs : goSort rs with
    | nil =>
      have hperm := goSort_perm rs
      rw [hgs] at hperm
      have : rs = [] := (hperm.symm).eq_nil
      subst this
      simp at hlen
    | cons x xs =>
      have hperm : List.Perm (x :: xs) rs := by
        rw [← hgs]
        exact goSort_perm rs
      have hsorted : List.Pairwise (fun a b => a.start ≤ b.start)
          (x :: xs) := by
        rw [← hgs]
        exact goSort_sorted rs
      rw [mergePass_cov x xs (List.pairwise_cons.mp hsorted).1
        hsorted.of_cons n]
      rw [← coveredPred_cons]
      exact coveredPred_perm hperm n

theorem mergeRanges_pairwise_gap (rs : List LineRange)
    (hv : ∀ r ∈ rs, r.start ≤ r.stop) :
    List.Pairwise (fun a b => a.stop + 1 < b.start) (mergeRanges rs) := by
  unfold mergeRanges
  split
  · rename_i hlen
    cases rs with
    | nil => simp
    | cons r t =>
      cases t with
      | nil => simp
      | cons r2 t2 => simp at hlen
  · rename_i hlen
    cases hgs : goSort rs with
    | nil => simp
    | cons x xs =>
      have hperm : List.Perm (x :: xs) rs := by
        rw [← hgs]
        exact goSort_perm rs
      have hsorted : List.Pairwise (fun a b => a.start ≤ b.start)
          (x :: xs) := by
        rw [← hgs]
        exact goSort_sorted rs
      have hvx : ∀ r ∈ x :: xs, r.start ≤ r.stop :=
        fun r hr => hv r (hperm.mem_iff.mp hr)
      have hchain := mergePass_chain x xs
        (List.pairwise_cons.mp hsorted).1 hsorted.of_cons
      have hvm := mergePass_valid x xs (hvx x (List.mem_cons_self x xs))
        (fun r hr => hvx r (List.mem_cons_of_mem x hr))
      exact chainGap_pairwise _ hchain hvm

theorem mergeRanges_valid (rs : List LineRange)
    (hv : ∀ r ∈ rs, r.start ≤ r.stop) :
    ∀ r ∈ mergeRanges rs, r.start ≤ r.stop := by
  unfold mergeRanges
  split
  · exact hv
  · cases hgs : goSort rs with
    | nil => simp
    | cons x xs =>
      have hperm : List.Perm (x :: xs) rs := by
        rw [← hgs]
        exact goSort_perm rs
      have hvx : ∀ r ∈ x :: xs, r.start ≤ r.stop :=
        fun r hr => hv r (hperm.mem_iff.mp hr)
      exact mergePass_valid x xs (hvx x (List.mem_cons_self x xs))
        (fun r hr => hvx r (List.mem_cons_of_mem x hr))

/-- C4.  For a selection whose ranges all satisfy `1 <= start` and
`start <= end`, `Merge` preserves the set of covered integers, and the
merged ranges are pairwise non-overlapping and non-adjacent (every later
range starts at least two past the previous end) and strictly sorted by
start. -/
theorem C4_merge_coverage_and_normal_form (fs : FileSelection)
    (hvalid : ∀ r ∈ fs.ranges, 1 ≤ r.start ∧ r.start ≤ r.stop) :
    (∀ n : Int, (fs.merge).containsLine n = fs.containsLine n) ∧
    List.Pairwise (fun a b => a.stop + 1 < b.start) (fs.merge).ranges ∧
    List.Pairwise (fun a b => a.start < b.start) (fs.merge).ranges := by
  have hv : ∀ r ∈ fs.ranges, r.start ≤ r.stop :=
    fun r hr => (hvalid r hr).2
  refine ⟨?_, ?_, ?_⟩
  · intro n
    have hcov := mergeRanges_cov fs.ranges n
    have h1 : (fs.merge).containsLine n = true ↔
        coveredPred (mergeRanges fs.ranges) n := by
      simp [FileSelection.containsLine, FileSelection.merge, coveredPred]
    have h2 : fs.containsLine n = true ↔ coveredPred fs.ranges n := by
      simp [FileSelection.containsLine, coveredPred]
    have hiff := h1.trans (hcov.trans h2.symm)
    cases hA : (fs.merge).containsLine n <;>
      cases hB : fs.containsLine n <;> simp_all
  · simpa [FileSelection.merge] using mergeRanges_pairwise_gap fs.ranges hv
  · have hgap := mergeRanges_pairwise_gap fs.ranges hv
    have hmv := mergeRanges_valid fs.ranges hv
    have hlt : List.Pairwise (fun a b => a.start < b.start)
        (mergeRanges fs.ranges) := by
      refine List.Pairwise.imp_of_mem ?_ hgap
      intro a b ha hb hab
      have hav := hmv a ha
      omega
    simpa [FileSelection.merge] using hlt

/-- C4 witness: unsorted, overlapping and adjacent ranges over positive
line numbers. -/
theorem C4_merge_coverage_and_normal_form_witness :
    (∀ r ∈ (⟨"main.go", [⟨5, 7⟩, ⟨1, 2⟩, ⟨3, 4⟩, ⟨10, 12⟩]⟩ :
        FileSelection).ranges, 1 ≤ r.start ∧ r.start ≤ r.stop) ∧
    ((∀ n : Int, ((⟨"main.go", [⟨5, 7⟩, ⟨1, 2⟩, ⟨3, 4⟩, ⟨10, 12⟩]⟩ :
        FileSelection).merge).containsLine n =
        (⟨"main.go", [⟨5, 7⟩, ⟨1, 2⟩, ⟨3, 4⟩, ⟨10, 12⟩]⟩ :
        FileSelection).containsLine n) ∧
      List.Pairwise (fun a b => a.stop + 1 < b.start)
        ((⟨"main.go", [⟨5, 7⟩, ⟨1, 2⟩, ⟨3, 4⟩, ⟨10, 12⟩]⟩ :
          FileSelection).merge).ranges ∧
      List.Pairwise (fun a b => a.start < b.start)
        ((⟨"main.go", [⟨5, 7⟩, ⟨1, 2⟩, ⟨3, 4⟩, ⟨10, 12⟩]⟩ :
          FileSelection).merge).ranges) :=
  ⟨by decide, C4_merge_coverage_and_normal_form
    ⟨"main.go", [⟨5, 7⟩, ⟨1, 2⟩, ⟨3, 4⟩, ⟨10, 12⟩]⟩ (by decide)⟩

/-! ## Selection-map coverage and the empty-output theorem (C3) -/

theorem insertSel_cov (C : Int → Prop) (m : List (String × FileSelection))
    (sel : FileSelection)
    (hm : ∀ e ∈ m, ∀ n, e.2.containsLine n = true → C n)
    (hs : ∀ n, sel.containsLine n = true → C n) :
    ∀ e ∈ insertSel m sel, ∀ n, e.2.containsLine n = true → C n := by
  induction m with
  | nil =>
    intro e he n hc
    simp only [insertSel, List.mem_singleton] at he
    subst he
    exact hs n hc
  | cons p rest ih =>
    intro e he n hc
    obtain ⟨pp, ex⟩ := p
    simp only [insertSel] at he
    split at he
    · rcases List.mem_cons.mp he with h | h
      · subst h
        have hcov : coveredPred (mergeRanges (ex.ranges ++ sel.ranges)) n := by
          simpa [FileSelection.containsLine, coveredPred] using hc
        rw [mergeRanges_cov] at hcov
        obtain ⟨r, hr, hrc⟩ := hcov
        rcases List.mem_append.mp hr with hr2 | hr2
        · refine hm (pp, ex) (List.mem_cons_self _ _) n ?_
          simp only [FileSelection.containsLine, List.any_eq_true]
          exact ⟨r, hr2, hrc⟩
        · refine hs n ?_
          simp only [FileSelection.containsLine, List.any_eq_true]
          exact ⟨r, hr2, hrc⟩
      · exact hm e (List.mem_cons_of_mem _ h) n hc
    · rcases List.mem_cons.mp he with h | h
      · subst h
        exact hm (pp, ex) (List.mem_cons_self _ _) n hc
      · exact ih (fun e2 he2 => hm e2 (List.mem_cons_of_mem _ he2)) e h n hc

theorem foldl_insertSel_cov (C : Int → Prop) (l : List FileSelection) :
    ∀ (m0 : List (String × FileSelection)),
    (∀ e ∈ m0, ∀ n, e.2.containsLine n = true → C n) →
    (∀ s ∈ l, ∀ n, s.containsLine n = true → C n) →
    ∀ e ∈ List.foldl insertSel m0 l, ∀ n,
      e.2.containsLine n = true → C n := by
  induction l with
  | nil =>
    intro m0 hm _ e he
    simpa using hm e he
  | cons s l ih =>
    intro m0 hm hl e he n hc
    simp only [List.foldl_cons] at he
    exact ih (insertSel m0 s)
      (insertSel_cov C m0 s hm (hl s (List.mem_cons_self s l)))
      (fun s2 hs2 => hl s2 (List.mem_cons_of_mem _ hs2)) e he n hc

theorem newSelectionMap_cov (sels : List FileSelection)
    (e : String × FileSelection) (he : e ∈ newSelectionMap sels) (n : Int)
    (hc : e.2.containsLine n = true) :
    ∃ sel ∈ sels, sel.containsLine n = true := by
  refine foldl_insertSel_cov
    (fun n => ∃ sel ∈ sels, sel.containsLine n = true) sels []
    ?_ ?_ e he n hc
  · intro e2 he2
    cases he2
  · intro s hs n2 hc2
    exact ⟨s, hs, hc2⟩

theorem mapGet_mem (m : List (String × FileSelection)) (p : String)
    (s : FileSelection) (h : mapGet m p = some s) : ∃ q, (q, s) ∈ m := by
  unfold mapGet at h
  cases hf : m.find? (fun e => e.1 = p) with
  | none =>
    rw [hf] at h
    cases h
  | some e =>
    rw [hf] at h
    simp only [Option.map_some'] at h
    have h2 : e.2 = s := Option.some.inj h
    have hmem := List.mem_of_find?_eq_some hf
    refine ⟨e.1, ?_⟩
    rw [← h2]
    exact hmem

theorem lookupSel_mem (m : List (String × FileSelection)) (f : FileDiff)
    (s : FileSelection) (h : lookupSel m f = some s) : ∃ q, (q, s) ∈ m := by
  unfold lookupSel at h
  cases h1 : mapGet m f.pathOf with
  | some s1 =>
    rw [h1] at h
    cases h
    exact mapGet_mem _ _ _ h1
  | none =>
    rw [h1] at h
    cases h2 : mapGet m f.oldName with
    | some s2 =>
      rw [h2] at h
      cases h
      exact mapGet_mem _ _ _ h2
    | none =>
      rw [h2] at h
      exact mapGet_mem _ _ _ h

theorem findBlocksAux_nil (sel : FileSelection)
    (il : List (Nat × DiffLine))
    (h : ∀ p ∈ il, p.2.isChange = true →
      sel.containsLine (effectiveLineNum p.2) = false) :
    findBlocksAux sel il none = [] := by
  induction il with
  | nil => rfl
  | cons p rest ih =>
    obtain ⟨i, line⟩ := p
    have iht := ih (fun q hq => h q (List.mem_cons_of_mem _ hq))
    simp only [findBlocksAux]
    cases hch : line.isChange with
    | false => simpa [hch] using iht
    | true =>
      have hns := h (i, line) (List.mem_cons_self _ _) hch
      simpa [hch, hns] using iht

theorem findChangeBlocks_nil (hk : Hunk) (sel : FileSelection)
    (hn : ∀ l ∈ hk.lines, l.isChange = true →
      sel.containsLine (effectiveLineNum l) = false) :
    findChangeBlocks hk sel = [] := by
  unfold findChangeBlocks
  apply findBlocksAux_nil
  intro p hp
  apply hn
  have hmem : p.2 ∈ hk.lines.enum.map Prod.snd := List.mem_map_of_mem _ hp
  rwa [List.enum_map_snd] at hmem

theorem flatMap_eq_nil_of_forall {α β : Type} (L : List α)
    (f : α → List β) (h : ∀ x ∈ L, f x = []) : L.flatMap f = [] := by
  induction L with
  | nil => rfl
  | cons x L ih =>
    simp only [List.flatMap_cons]
    rw [h x (List.mem_cons_self x L), List.nil_append]
    exact ih (fun y hy => h y (List.mem_cons_of_mem x hy))

/-- C3.  When no selection in the input covers the effective line number
of any change line of the diff, `Generate` returns empty output together
with the (always-nil) error: an empty result, not an engine failure. -/
theorem C3_no_selection_match_empty_output (parsed : ParsedDiff)
    (sels : List FileSelection)
    (h : ∀ sel ∈ sels, ∀ file ∈ parsed.files, ∀ hk ∈ file.hunks,
      ∀ l ∈ hk.lines, l.isChange = true →
        sel.containsLine (effectiveLineNum l) = false) :
    generate parsed sels = .ok "" := by
  unfold generate
  have hlines : generateLines parsed sels = [] := by
    unfold generateLines
    apply flatMap_eq_nil_of_forall
    intro file hf
    cases hlook : lookupSel (newSelectionMap sels) file with
    | none => simp [hlook]
    | some s =>
      have hscov : ∀ n, s.containsLine n = true →
          ∃ sel ∈ sels, sel.containsLine n = true := by
        intro n hn
        obtain ⟨q, hqm⟩ := lookupSel_mem _ _ _ hlook
        exact newSelectionMap_cov sels (q, s) hqm n hn
      have hfh : filterHunks file.hunks s = [] := by
        unfold filterHunks
        apply flatMap_eq_nil_of_forall
        intro hk hhk
        unfold filterHunk
        rw [findChangeBlocks_nil hk s ?_]
        · rfl
        · intro l hl hch
          cases hcl : s.containsLine (effectiveLineNum l) with
          | false => rfl
          | true =>
            obtain ⟨sel, hselm, hselc⟩ := hscov _ hcl
            have hfalse := h sel hselm file hf hk hhk l hl hch
            rw [hfalse] at hselc
            cases hselc
      simp [hlook, hfh]
  rw [hlines]
  rfl

/-- C3 witness: a diff with three additions and a selection far outside
any changed line. -/
theorem C3_no_selection_match_empty_output_witness :
    (∀ sel ∈ [(⟨"main.go", [⟨100, 200⟩]⟩ : FileSelection)],
      ∀ file ∈ (splitScenarioDiff "a" "b" "c" "d" "e" "f" "g" "h" "i").files,
      ∀ hk ∈ file.hunks, ∀ l ∈ hk.lines, l.isChange = true →
        sel.containsLine (effectiveLineNum l) = false) ∧
    generate (splitScenarioDiff "a" "b" "c" "d" "e" "f" "g" "h" "i")
      [⟨"main.go", [⟨100, 200⟩]⟩] = .ok "" :=
  ⟨by decide, C3_no_selection_match_empty_output
    (splitScenarioDiff "a" "b" "c" "d" "e" "f" "g" "h" "i")
    [⟨"main.go", [⟨100, 200⟩]⟩] (by decide)⟩

/-! ## The autosquash reordering with unresolved targets (C6, amended) -/

theorem fixupsFor_nil (entries : List CommitEntry)
    (h : ∀ e ∈ entries, e.target = "") (t : String) :
    fixupsFor entries t = [] := by
  unfold fixupsFor
  rw [List.filter_eq_nil_iff]
  intro e he
  simp [h e he]

theorem entriesOf_pairwise (commits : List CommitInfo)
    (hdist : List.Pairwise (fun a b => a.hash ≠ b.hash) commits) :
    List.Pairwise (fun a b => a.info.hash ≠ b.info.hash)
      (entriesOf commits) := by
  unfold entriesOf
  rw [List.pairwise_map]
  refine hdist.imp ?_
  intro a b hab
  dsimp only
  split_ifs <;> simpa using hab

theorem containsStr_true_iff (l : List String) (a : String) :
    l.contains a = true ↔ a ∈ l :=
  List.elem_iff

theorem containsStr_false_iff (l : List String) (a : String) :
    l.contains a = false ↔ a ∉ l := by
  rw [Bool.eq_false_iff]
  constructor
  · intro h hm
    exact h ((containsStr_true_iff l a).mpr hm)
  · intro h hc
    exact h ((containsStr_true_iff l a).mp hc)

theorem mainLoop_all_unresolved (all : List CommitEntry)
    (hall : ∀ e ∈ all, e.target = "") :
    ∀ (entries : List CommitEntry) (placed : List String),
    (∀ e ∈ entries, e.target = "") →
    List.Pairwise (fun a b => a.info.hash ≠ b.info.hash) entries →
    (∀ e ∈ entries, placed.contains e.info.hash = false) →
    mainLoop all entries placed =
      (entries, (entries.map (fun e => e.info.hash)).reverse ++ placed) := by
  intro entries
  induction entries with
  | nil =>
    intro placed _ _ _
    simp [mainLoop]
  | cons e rest ih =>
    intro placed htargets hdist hplaced
    have hpe := hplaced e (List.mem_cons_self _ _)
    have hte := htargets e (List.mem_cons_self _ _)
    simp only [mainLoop]
    rw [if_neg (by simp only [hpe]; exact Bool.false_ne_true)]
    rw [if_neg (by simp [hte])]
    rw [fixupsFor_nil all hall]
    simp only [placeFixups]
    have hrest := ih (e.info.hash :: placed)
      (fun e2 he2 => htargets e2 (List.mem_cons_of_mem _ he2))
      hdist.of_cons
      (by
        intro e2 he2
        have hne : e.info.hash ≠ e2.info.hash :=
          (List.pairwise_cons.mp hdist).1 e2 he2
        have hp2 := hplaced e2 (List.mem_cons_of_mem _ he2)
        rw [containsStr_false_iff]
        intro hm
        rcases List.mem_cons.mp hm with hh | hh
        · exact hne hh.symm
        · exact (containsStr_false_iff placed e2.info.hash).mp hp2 hh)
    rw [hrest]
    simp [List.reverse_cons, List.append_assoc]

theorem remainingEntries_nil (entries : List CommitEntry)
    (placed : List String)
    (h : ∀ e ∈ entries, placed.contains e.info.hash = true) :
    remainingEntries entries placed = [] := by
  induction entries with
  | nil => rfl
  | cons e rest ih =>
    simp only [remainingEntries]
    rw [if_pos (h e (List.mem_cons_self _ _))]
    exact ih (fun e2 he2 => h e2 (List.mem_cons_of_mem _ he2))

/-- C6 amended.  A fixup/squash commit whose target resolution fails is
kept at its original position rather than dropped or moved: for every
commit list with pairwise-distinct hashes in which every entry's computed
target is empty, the autosquash plan lists the commits in exactly their
original order. -/
theorem C6_unresolved_fixups_keep_order (commits : List CommitInfo)
    (hdist : List.Pairwise (fun a b => a.hash ≠ b.hash) commits)
    (hunres : ∀ e ∈ entriesOf commits, e.target = "") :
    (buildAutosquashPlan commits).1.actions =
      (entriesOf commits).map
        (fun e => ⟨e.action, e.info.hash, "", ""⟩) := by
  unfold buildAutosquashPlan reorderForAutosquash
  have hdist2 := entriesOf_pairwise commits hdist
  have hmain := mainLoop_all_unresolved (entriesOf commits) hunres
    (entriesOf commits) [] hunres hdist2
    (fun e _ => rfl)
  rw [hmain]
  have hrem : remainingEntries (entriesOf commits)
      (((entriesOf commits).map (fun e => e.info.hash)).reverse ++ []) =
      [] := by
    apply remainingEntries_nil
    intro e he
    rw [containsStr_true_iff]
    rw [List.append_nil, List.mem_reverse]
    exact List.mem_map_of_mem _ he
  rw [hrem]
  simp

/-- C6 amended, witness: the two-commit list whose fixup target is
unresolvable. -/
theorem C6_unresolved_fixups_keep_order_witness :
    List.Pairwise (fun a b => a.hash ≠ b.hash) unresolvedFixupCommits ∧
    (∀ e ∈ entriesOf unresolvedFixupCommits, e.target = "") ∧
    (buildAutosquashPlan unresolvedFixupCommits).1.actions =
      (entriesOf unresolvedFixupCommits).map
        (fun e => ⟨e.action, e.info.hash, "", ""⟩) :=
  ⟨by decide, by decide,
    C6_unresolved_fixups_keep_order unresolvedFixupCommits
      (by decide) (by decide)⟩

/-! ## Frame effect of Generate on its selections (C9) -/

/-- C9 counterexample.  With two selections sharing the path `a`,
`NewSelectionMap` (called by `Generate`) appends the second selection's
ranges into the first selection object and re-merges in place, so after
the call the first input selection's ranges have changed: the arguments
are not consumed read-only. -/
theorem C9_selections_mutated_counterexample :
    generateFinalSels [⟨"a", [⟨1, 1⟩]⟩, ⟨"a", [⟨3, 3⟩]⟩] =
      [⟨"a", [⟨1, 1⟩, ⟨3, 3⟩]⟩, ⟨"a", [⟨3, 3⟩]⟩] ∧
    generateFinalSels [⟨"a", [⟨1, 1⟩]⟩, ⟨"a", [⟨3, 3⟩]⟩] ≠
      [⟨"a", [⟨1, 1⟩]⟩, ⟨"a", [⟨3, 3⟩]⟩] := by
  decide

theorem insertSel_fresh (m0 : List (String × FileSelection))
    (s : FileSelection) (h : ∀ e ∈ m0, e.1 ≠ s.path) :
    insertSel m0 s = m0 ++ [(s.path, s)] := by
  induction m0 with
  | nil => rfl
  | cons p rest ih =>
    obtain ⟨pp, ex⟩ := p
    simp only [insertSel]
    rw [if_neg (h (pp, ex) (List.mem_cons_self _ _))]
    rw [ih (fun e he => h e (List.mem_cons_of_mem _ he))]
    simp

theorem foldl_insertSel_distinct (sels : List FileSelection) :
    ∀ (m0 : List (String × FileSelection)),
    List.Pairwise (fun a b => a.path ≠ b.path) sels →
    (∀ e ∈ m0, ∀ s ∈ sels, e.1 ≠ s.path) →
    List.foldl insertSel m0 sels =
      m0 ++ sels.map (fun s => (s.path, s)) := by
  induction sels with
  | nil =>
    intro m0 _ _
    simp
  | cons s rest ih =>
    intro m0 hdist hfresh
    simp only [List.foldl_cons]
    rw [insertSel_fresh m0 s
      (fun e he => hfresh e he s (List.mem_cons_self _ _))]
    rw [ih (m0 ++ [(s.path, s)]) hdist.of_cons ?_]
    · simp
    · intro e he s2 hs2
      rcases List.mem_append.mp he with h1 | h1
      · exact hfresh e h1 s2 (List.mem_cons_of_mem _ hs2)
      · simp only [List.mem_singleton] at h1
        subst h1
        exact (List.pairwise_cons.mp hdist).1 s2 hs2

theorem mapGet_map_self (sels : List FileSelection)
    (hdist : List.Pairwise (fun a b => a.path ≠ b.path) sels)
    (s : FileSelection) (hs : s ∈ sels) :
    mapGet (sels.map (fun s => (s.path, s))) s.path = some s := by
  induction sels with
  | nil => cases hs
  | cons t rest ih =>
    rcases List.mem_cons.mp hs with h | h
    · subst h
      simp [mapGet, List.find?_cons]
    · have hne : t.path ≠ s.path := (List.pairwise_cons.mp hdist).1 s h
      simp only [List.map_cons, mapGet, List.find?_cons]
      rw [decide_eq_false hne]
      exact ih hdist.of_cons h

theorem finalSelsAux_id (m : List (String × FileSelection)) :
    ∀ (l : List FileSelection) (seen : List String),
    (∀ s ∈ l, seen.contains s.path = false) →
    (∀ s ∈ l, mapGet m s.path = some s) →
    List.Pairwise (fun a b => a.path ≠ b.path) l →
    finalSelsAux m l seen = l := by
  intro l
  induction l with
  | nil =>
    intro seen _ _ _
    rfl
  | cons s rest ih =>
    intro seen hseen hmap hdist
    simp only [finalSelsAux]
    rw [if_neg (by
      simp only [hseen s (List.mem_cons_self _ _)]
      exact Bool.false_ne_true)]
    rw [hmap s (List.mem_cons_self _ _)]
    simp only [Option.getD_some]
    congr 1
    refine ih (s.path :: seen) ?_
      (fun s2 hs2 => hmap s2 (List.mem_cons_of_mem _ hs2)) hdist.of_cons
    intro s2 hs2
    rw [containsStr_false_iff]
    intro hm
    rcases List.mem_cons.mp hm with hh | hh
    · exact (List.pairwise_cons.mp hdist).1 s2 hs2 hh.symm
    · exact (containsStr_false_iff seen s2.path).mp
        (hseen s2 (List.mem_cons_of_mem _ hs2)) hh

/-- C9 amended.  `Generate` leaves its selection arguments unchanged
whenever all selection paths are pairwise distinct; only when two
selections share a path is the first selection for that path mutated (its
ranges become the merged union), while paths and the later duplicates'
ranges are never written. -/
theorem C9_distinct_paths_read_only (sels : List FileSelection)
    (hdist : List.Pairwise (fun a b => a.path ≠ b.path) sels) :
    generateFinalSels sels = sels := by
  unfold generateFinalSels
  have hmap : newSelectionMap sels = sels.map (fun s => (s.path, s)) := by
    unfold newSelectionMap
    rw [foldl_insertSel_distinct sels [] hdist (fun e he => by cases he)]
    simp
  rw [hmap]
  exact finalSelsAux_id _ sels [] (fun s _ => rfl)
    (fun s hs => mapGet_map_self sels hdist s hs) hdist

/-- C9 amended, witness: two selections with distinct paths. -/
theorem C9_distinct_paths_read_only_witness :
    List.Pairwise (fun a b => a.path ≠ b.path)
      [(⟨"main.go", [⟨1, 4⟩]⟩ : FileSelection), ⟨"utils.go", [⟨2, 2⟩]⟩] ∧
    generateFinalSels
      [(⟨"main.go", [⟨1, 4⟩]⟩ : FileSelection), ⟨"utils.go", [⟨2, 2⟩]⟩] =
      [⟨"main.go", [⟨1, 4⟩]⟩, ⟨"utils.go", [⟨2, 2⟩]⟩] :=
  ⟨by decide, C9_distinct_paths_read_only
    [⟨"main.go", [⟨1, 4⟩]⟩, ⟨"utils.go", [⟨2, 2⟩]⟩] (by decide)⟩
